import Mathlib

/-!
Verification of the `sax`/`stamox` functional pipeline core and of two
numeric front-ends (`stamox/distribution/_beta.py`, `stamox/transformation.py`).

The pipeline core (`stamox.core`: `Functional`, `Pipeable`, `make_pipe`,
`make_partial_pipe`, `pipe_jit`, the dispatch registry) is not among the
staged source files — only its callers and tests are — so those definitions
are modelled from the spec (sections 3, 4.1, 4.2, 4.4) and are marked
`Modelled from the spec:`.  The beta-distribution flag handling and the
Box-Cox transform are embedded directly from the source files.
-/

namespace Stamox

/-- Keyword-argument sets are modelled as association lists from argument
names to values; lookup takes the first (leftmost) binding of a name, so
prepending bindings models Python dict-merge where the prepended side wins. -/
abbrev Kwargs (A : Type) := List (String × A)

/-- Modelled from the spec: a Functional wraps a callable body and is called
directly like the original function (spec section 3, "Functional"). -/
structure Functional (V : Type) where
  call : V → V

/-- Modelled from the spec: `make_pipe(kernel)` returns a Functional that,
when called, invokes `kernel` with exactly the arguments supplied at call
time — a transparent rename (spec section 4.1). -/
def make_pipe {V : Type} (kernel : V → V) : Functional V :=
  ⟨kernel⟩

/-- Modelled from the spec: the `>>` operator (Python `__rshift__`) on two
Functionals builds a composed Functional whose call threads the output of
the left operand as the input of the right operand (spec section 4.2). -/
def Functional.rshift {V : Type} (f g : Functional V) : Functional V :=
  ⟨fun x => g.call (f.call x)⟩

/-- Modelled from the spec: a partially-applicable Functional is an immutable
record of the wrapped kernel and the keyword arguments bound so far
(spec section 9: "an immutable record {kernel, bound_arguments}").
The kernel takes the positional data argument and a keyword-argument set. -/
structure PartialPipe (V A : Type) where
  kernel : V → Kwargs A → V
  bound_kwargs : Kwargs A

/-- Modelled from the spec: `make_partial_pipe(kernel)` returns an unbound
partially-applicable Functional, with no keywords pre-bound yet
(spec section 4.1). -/
def make_partial_pipe {V A : Type} (kernel : V → Kwargs A → V) : PartialPipe V A :=
  ⟨kernel, []⟩

/-- Modelled from the spec: a keyword-only call returns a *new* Functional
with those keywords pre-bound, deferring execution; newly supplied keywords
take precedence over previously stored ones (spec sections 4.1 and 4.4
state machine: each partial-bind call produces a fresh instance). -/
def PartialPipe.bind_kwargs {V A : Type} (f : PartialPipe V A) (kw : Kwargs A) :
    PartialPipe V A :=
  { f with bound_kwargs := kw ++ f.bound_kwargs }

/-- Modelled from the spec: a call that supplies the positional data argument
executes immediately, merging the stored pre-bound keywords with the
call-time keywords, explicit call-time arguments winning on conflict
(spec sections 3 and 4.1). -/
def PartialPipe.call {V A : Type} (f : PartialPipe V A) (x : V) (kw : Kwargs A) : V :=
  f.kernel x (kw ++ f.bound_kwargs)

/-- A partially-bound stage used inside a pipeline: the composed pipeline
supplies only the positional data argument, the stored keywords still apply
(spec section 3, "Composed pipeline"). -/
def PartialPipe.toFunctional {V A : Type} (f : PartialPipe V A) : Functional V :=
  ⟨fun x => f.call x []⟩

/-- Modelled from the spec: a Pipeable wraps a concrete value so that a bare
value can seed a pipeline (spec section 3, "Pipeable"). -/
structure Pipeable (V : Type) where
  value : V

/-- Modelled from the spec: `Pipeable(x) >> f` evaluates eagerly, wrapping
the result `f(x)` as a new Pipeable (spec section 4.2). -/
def Pipeable.rshift {V : Type} (p : Pipeable V) (f : Functional V) : Pipeable V :=
  ⟨f.call p.value⟩

/-- Invoking a seeded pipeline returns the wrapped value. -/
def Pipeable.run {V : Type} (p : Pipeable V) : V :=
  p.value

/-- C1: for every kernel `f`, positional argument `x` and keyword set `kw`,
calling the `make_partial_pipe`-decorated Functional directly with all
arguments equals first pre-binding the keywords and then supplying the
positional argument: `make_partial_pipe(f)(x, **kw) = make_partial_pipe(f)(**kw)(x)`. -/
theorem make_partial_pipe_bind_then_apply {V A : Type} (f : V → Kwargs A → V)
    (x : V) (kw : Kwargs A) :
    (make_partial_pipe f).call x kw = ((make_partial_pipe f).bind_kwargs kw).call x [] := by
  simp [make_partial_pipe, PartialPipe.call, PartialPipe.bind_kwargs]

/-- C2: composition with `>>` is associative under evaluation and threads
each stage's output as the next stage's input:
`((f >> g) >> h)(x) = (f >> (g >> h))(x) = h(g(f(x)))`, and in particular
`(f >> g)(x) = g(f(x))`. -/
theorem rshift_assoc_eval {V : Type} (f g h : Functional V) (x : V) :
    ((f.rshift g).rshift h).call x = (f.rshift (g.rshift h)).call x ∧
    ((f.rshift g).rshift h).call x = h.call (g.call (f.call x)) ∧
    (f.rshift g).call x = g.call (f.call x) :=
  ⟨rfl, rfl, rfl⟩

/-- C6: seeding a pipeline with a wrapped value and composing it with a
Functional `f` evaluates `f` on the value: invoking `Pipeable(x) >> f`
returns `f(x)`. -/
theorem pipeable_seed_eval {V : Type} (x : V) (f : Functional V) :
    ((Pipeable.mk x).rshift f).run = f.call x :=
  rfl

/-- C8: a keyword-only call on a `make_partial_pipe` Functional returns a
fresh instance that records the merged bindings, and never mutates the
receiver: the original Functional still calls the original kernel with its
own stored bindings (unchanged behaviour for direct full-argument calls),
and independent bindings built from the same original do not interfere. -/
theorem bind_kwargs_fresh_no_mutation {V A : Type} (f : PartialPipe V A) (kw : Kwargs A) :
    ((f.bind_kwargs kw).kernel = f.kernel ∧
      (f.bind_kwargs kw).bound_kwargs = kw ++ f.bound_kwargs) ∧
    (∀ x c, f.call x c = f.kernel x (c ++ f.bound_kwargs)) ∧
    (∀ kw2 x, (f.bind_kwargs kw2).call x [] = f.kernel x (kw2 ++ f.bound_kwargs)) :=
  ⟨⟨rfl, rfl⟩, fun _ _ => rfl, fun kw2 x => by
    simp [PartialPipe.call, PartialPipe.bind_kwargs]⟩

/-- First-match lookup in an appended association list: a binding present in
the left (call-time) part shadows the right (stored) part. -/
theorem lookup_append_left {A : Type} (l₁ l₂ : Kwargs A) (key : String) (v : A)
    (h : l₁.lookup key = some v) : (l₁ ++ l₂).lookup key = some v := by
  induction l₁ with
  | nil => simp [List.lookup] at h
  | cons p rest ih =>
    rw [List.cons_append]
    rw [List.lookup] at h ⊢
    cases hk : (key == p.1) with
    | true => simpa [hk] using by simpa [hk] using h
    | false =>
      simp only [hk] at h ⊢
      exact ih h

/-- When the left (call-time) part has no binding for a name, lookup in the
appended list falls through to the right (stored) part. -/
theorem lookup_append_right {A : Type} (l₁ l₂ : Kwargs A) (key : String)
    (h : l₁.lookup key = none) : (l₁ ++ l₂).lookup key = l₂.lookup key := by
  induction l₁ with
  | nil => simp
  | cons p rest ih =>
    rw [List.cons_append]
    rw [List.lookup] at h ⊢
    cases hk : (key == p.1) with
    | true => simp [hk] at h
    | false =>
      simp only [hk] at h ⊢
      exact ih h

/-- C3: a call on a partially-bound Functional that supplies the positional
data argument invokes the original kernel on the merged keyword set
(call-time bindings in front of the stored ones), and under first-match
lookup every keyword present at call time wins over a stored binding of the
same name, while keywords absent at call time fall back to the stored value.
The result is by definition what the undecorated kernel returns on that
merged argument set. -/
theorem partial_call_merges_kwargs {V A : Type} (kernel : V → Kwargs A → V)
    (stored callt : Kwargs A) (x : V) :
    ((make_partial_pipe kernel).bind_kwargs stored).call x callt = kernel x (callt ++ stored) ∧
    (∀ key v, callt.lookup key = some v → (callt ++ stored).lookup key = some v) ∧
    (∀ key, callt.lookup key = none → (callt ++ stored).lookup key = stored.lookup key) := by
  refine ⟨?_, fun key v h => lookup_append_left callt stored key v h,
    fun key h => lookup_append_right callt stored key h⟩
  simp [make_partial_pipe, PartialPipe.bind_kwargs, PartialPipe.call]

/-- A concrete kernel for exercising the keyword-merge contract: adds the
value bound to name `a` to the positional argument. -/
def addKwargA (x : ℕ) (kw : Kwargs ℕ) : ℕ :=
  x + ((kw.lookup "a").getD 0)

/-- C3 witness: binding `a ↦ 2, b ↦ 3` and then calling with call-time
`a ↦ 1` runs the kernel on the merged set where the call-time `a` wins and
the stored `b` survives. -/
theorem partial_call_merges_kwargs_witness :
    ((make_partial_pipe addKwargA).bind_kwargs [("a", 2), ("b", 3)]).call 5 [("a", 1)] =
      addKwargA 5 ([("a", 1)] ++ [("a", 2), ("b", 3)]) ∧
    ([("a", 1)] ++ [("a", (2 : ℕ)), ("b", 3)]).lookup "a" = some 1 ∧
    ([("a", 1)] ++ [("a", (2 : ℕ)), ("b", 3)]).lookup "b" = [("a", 2), ("b", 3)].lookup "b" := by
  have h := partial_call_merges_kwargs addKwargA [("a", 2), ("b", 3)] [("a", 1)] 5
  exact ⟨h.1, h.2.1 "a" 1 (by decide), h.2.2 "b" (by decide)⟩

namespace BasicTest

/-- Kernel `f(x) = x ** 2` from `tests/basic_test.py`, elementwise on an
array value, decorated with `make_pipe`. -/
def f : Functional (List ℚ) :=
  make_pipe (fun x => x.map (fun t => t ^ 2))

/-- Kernel `g(x) = x + 1` from `tests/basic_test.py`, elementwise, decorated
with `make_pipe`. -/
def g : Functional (List ℚ) :=
  make_pipe (fun x => x.map (fun t => t + 1))

/-- Kernel `k(x, y) = x ** 3 + y` from `tests/basic_test.py`, elementwise in
`x` with the scalar keyword argument `y`, decorated with `make_partial_pipe`. -/
def k : PartialPipe (List ℚ) ℚ :=
  make_partial_pipe (fun x kw => x.map (fun t => t ^ 3 + ((kw.lookup "y").getD 0)))

/-- The pipeline `h = f >> g >> k(y=1.)` of the end-to-end scenario. -/
def h : Functional (List ℚ) :=
  (f.rshift g).rshift ((k.bind_kwargs [("y", 1)]).toFunctional)

end BasicTest

/-- C4: evaluating the pipeline `h = f >> g >> k(y=1.)` on the input
`[1, 2, 3]` yields exactly `[9, 126, 1001]`, i.e. elementwise
`((x ** 2) + 1) ** 3 + 1`. -/
theorem basic_pipeline_eval :
    BasicTest.h.call [1, 2, 3] = [9, 126, 1001] := by
  simp only [BasicTest.h, BasicTest.f, BasicTest.g, BasicTest.k, make_pipe,
    make_partial_pipe, PartialPipe.bind_kwargs, PartialPipe.toFunctional,
    PartialPipe.call, Functional.rshift, List.map, List.lookup, List.nil_append,
    List.append_nil]
  norm_num

/-- Runs a pipeline of Functional stages left to right, threading each
stage's output into the next stage (spec section 3, "Composed pipeline"). -/
def runPipeline {V : Type} (stages : List (Functional V)) (x : V) : V :=
  stages.foldl (fun a s => s.call a) x

/-- Modelled from the spec: `pipe_jit` applies the external engine's
compilation transform to the unbound kernel once, then wraps it as a
Functional (spec section 4.1); the engine's transform is observably
equivalent to the identity on behaviour (spec section 6, "Compilation
transform interface"). -/
def pipe_jit {V : Type} (compile : (V → V) → (V → V)) (kernel : V → V) :
    Functional V :=
  ⟨compile kernel⟩

/-- C5: provided the external compilation transform is observably equivalent
to the uncompiled function (the engine contract), wrapping every stage of a
pipeline with `pipe_jit` yields the same result as the uncompiled pipeline
on every input — in exact arithmetic, equality on the nose — and hence every
named field extracted from a StateFunc-valued result agrees between the
compiled and the uncompiled run. -/
theorem pipe_jit_transparent {V W : Type} (compile : (V → V) → (V → V))
    (hc : ∀ gg x, compile gg x = gg x) (stages : List (Functional V)) (x : V)
    (field : V → W) :
    runPipeline (stages.map (fun s => pipe_jit compile s.call)) x = runPipeline stages x ∧
    field (runPipeline (stages.map (fun s => pipe_jit compile s.call)) x) =
      field (runPipeline stages x) := by
  have main : ∀ (st : List (Functional V)) (y : V),
      runPipeline (st.map (fun s => pipe_jit compile s.call)) y = runPipeline st y := by
    intro st
    induction st with
    | nil => intro y; rfl
    | cons s rest ih =>
      intro y
      simpa [runPipeline, pipe_jit, hc] using ih (s.call y)
  exact ⟨main stages x, congrArg field (main stages x)⟩

/-- C5 witness: the identity transform satisfies the engine contract, and a
one-stage pipeline gives the same answer compiled and uncompiled. -/
theorem pipe_jit_transparent_witness :
    runPipeline ([make_pipe (fun t : ℕ => t + 1)].map
        (fun s => pipe_jit id s.call)) 0 =
      runPipeline [make_pipe (fun t : ℕ => t + 1)] 0 ∧
    (runPipeline ([make_pipe (fun t : ℕ => t + 1)].map
        (fun s => pipe_jit id s.call)) 0) + 1 =
      (runPipeline [make_pipe (fun t : ℕ => t + 1)] 0) + 1 :=
  pipe_jit_transparent id (fun _ _ => rfl) [make_pipe (fun t : ℕ => t + 1)] 0
    (fun t => t + 1)

/-- The failure value of a dispatch lookup: it carries the requested method
name and the set of registered (valid) names. -/
structure DispatchError where
  requested : String
  valid : List String
deriving DecidableEq

/-- Modelled from the spec: `dispatch(method=name)` looks `name` up in the
static registry; a registered name yields its implementation, an
unregistered name signals an unknown-method failure identifying the
requested name and the set of valid names (spec section 4.4).  The registry
itself lives in `stamox/regrex/_base.py`, which is not among the staged
files; `ols` in `stamox/regrex/_linear_model.py` is its caller. -/
def dispatch {F : Type} (registry : List (String × F)) (method : String) :
    Except DispatchError F :=
  match registry.lookup method with
  | some impl => Except.ok impl
  | none => Except.error ⟨method, registry.map Prod.fst⟩

/-- C7: a dispatch lookup of a registered name returns exactly the
implementation registered under that name, and a lookup of an unregistered
name returns an unknown-method error carrying the requested name and the
list of valid names — never a default value. -/
theorem dispatch_total_or_unknown {F : Type} (registry : List (String × F))
    (method : String) :
    (∀ impl, registry.lookup method = some impl →
      dispatch registry method = Except.ok impl) ∧
    (registry.lookup method = none →
      dispatch registry method = Except.error ⟨method, registry.map Prod.fst⟩) := by
  constructor
  · intro impl h
    simp [dispatch, h]
  · intro h
    simp [dispatch, h]

/-- C7 witness: in a registry holding only `ols`, dispatching `ols` returns
its implementation and dispatching `nonexistent` returns the unknown-method
error naming `nonexistent` and the valid set `[ols]`. -/
theorem dispatch_total_or_unknown_witness :
    dispatch [("ols", (1 : ℕ))] "ols" = Except.ok 1 ∧
    dispatch [("ols", (1 : ℕ))] "nonexistent" =
      Except.error ⟨"nonexistent", ["ols"]⟩ :=
  ⟨(dispatch_total_or_unknown [("ols", (1 : ℕ))] "ols").1 1 (by decide),
    (dispatch_total_or_unknown [("ols", (1 : ℕ))] "nonexistent").2 (by decide)⟩

/-- `pbeta` from `src/stamox/distribution/_beta.py`: the regularized
incomplete beta function `betainc(a, b, q)` (an external kernel, passed as a
parameter), post-processed by the flags in source order — first
`if not lower_tail: p = 1 - p`, then `if log_prob: p = log(p)` — in
exact real arithmetic, scalar view of the vmapped elementwise computation. -/
noncomputable def pbeta (betainc : ℝ → ℝ → ℝ → ℝ) (q a b : ℝ)
    (lower_tail log_prob : Bool) : ℝ :=
  let p := betainc a b q
  let p1 := if lower_tail then p else 1 - p
  if log_prob then Real.log p1 else p1

/-- `qbeta` from `src/stamox/distribution/_beta.py`: the flags pre-process
the probability in source order — first `if not lower_tail: p = 1 - p`,
then `if log_prob: p = exp(p)` — before handing it to the external inverse
kernel `betaincinv(a, b, p)`. -/
noncomputable def qbeta (betaincinv : ℝ → ℝ → ℝ → ℝ) (p a b : ℝ)
    (lower_tail log_prob : Bool) : ℝ :=
  let p1 := if lower_tail then p else 1 - p
  let p2 := if log_prob then Real.exp p1 else p1
  betaincinv a b p2

/-- C9 counterexample: with the identity pair standing for
`betainc`/`betaincinv` (which exactly invert each other), shape parameters
`a = b = 1` and `q = 1/2`, the round trip fails for
`lower_tail = false, log_prob = true`: `qbeta` flips the tail *before*
exponentiating, so it computes `exp(1 - log(1/2)) = 2 * e ≠ 1/2`. -/
theorem qbeta_pbeta_round_trip_cex :
    ¬ (qbeta (fun _ _ x => x) (pbeta (fun _ _ x => x) (1 / 2 : ℝ) 1 1 false true)
        1 1 false true = 1 / 2) := by
  intro h
  simp only [pbeta, qbeta, Bool.false_eq_true, if_false, if_true] at h
  norm_num at h
  rw [Real.exp_sub, Real.exp_log (by norm_num)] at h
  nlinarith [Real.exp_one_gt_d9]

/-- C9 (amended): assuming the external kernel `betaincinv(a, b, ·)` exactly
inverts `betainc(a, b, ·)` and `betainc(a, b, q)` is positive whenever the
probability is taken on the log scale, the round trip
`qbeta (pbeta q lower_tail log_prob) lower_tail log_prob = q` holds in exact
arithmetic for every flag combination *except* `lower_tail = false`
together with `log_prob = true` (where `qbeta` applies the tail flip before
the exponential, in the wrong order to undo `pbeta`). -/
theorem qbeta_pbeta_round_trip (betainc betaincinv : ℝ → ℝ → ℝ → ℝ)
    (a b q : ℝ) (lower_tail log_prob : Bool)
    (hinv : ∀ x, betaincinv a b (betainc a b x) = x)
    (hpos : log_prob = true → 0 < betainc a b q)
    (hflag : ¬(lower_tail = false ∧ log_prob = true)) :
    qbeta betaincinv (pbeta betainc q a b lower_tail log_prob) a b
      lower_tail log_prob = q := by
  cases lower_tail with
  | false =>
    cases log_prob with
    | false => simp [pbeta, qbeta, sub_sub_cancel, hinv]
    | true => exact absurd ⟨rfl, rfl⟩ hflag
  | true =>
    cases log_prob with
    | false => simp [pbeta, qbeta, hinv]
    | true =>
      have hp := hpos rfl
      simp [pbeta, qbeta, Real.exp_log hp, hinv]

/-- C9 witness: with identity external kernels, `a = b = 0`, `q = 5` and the
default flags, the round trip returns the input. -/
theorem qbeta_pbeta_round_trip_witness :
    qbeta (fun _ _ x => x) (pbeta (fun _ _ x => x) 5 0 0 true false) 0 0
      true false = 5 :=
  qbeta_pbeta_round_trip (fun _ _ x => x) (fun _ _ x => x) 0 0 5 true false
    (fun _ => rfl) (fun hp => absurd hp (by decide)) (by decide)

/-- An elementwise division in the floating-point style of the numeric
engine: dividing by zero yields the invalid value (modelled as `none`,
standing for NaN). -/
noncomputable def fpDiv (a b : ℝ) : Option ℝ :=
  if b = 0 then none else some (a / b)

/-- An elementwise logarithm in the floating-point style of the numeric
engine: the logarithm of a non-positive value is invalid (modelled as
`none`). -/
noncomputable def fpLog (x : ℝ) : Option ℝ :=
  if 0 < x then some (Real.log x) else none

/-- One element of `boxcox` from `src/stamox/transformation.py`:
`lax.select(lmbda == 0, log(x), (x ** lmbda - 1) / lmbda)` selects, per
element, the logarithm branch where `lmbda` is zero and the power branch
elsewhere; only the selected branch's value reaches the result (the
unselected branch's value, valid or not, is discarded by the select). -/
noncomputable def boxcoxElem (x lmbda : ℝ) : Option ℝ :=
  if lmbda = 0 then fpLog x else fpDiv (x ^ lmbda - 1) lmbda

/-- `boxcox` from `src/stamox/transformation.py`, elementwise over arrays of
equal shape, in exact real arithmetic. -/
noncomputable def boxcox (x lmbda : List ℝ) : List (Option ℝ) :=
  List.zipWith boxcoxElem x lmbda

/-- C10: for strictly positive inputs `boxcox` is total — every output
element is a valid value, never the invalid (NaN) value — and at every
position where `lmbda` is zero the output is `log(x)` there, even though
the unselected division branch at that position is itself the invalid
divide-by-zero value: the select keeps it from reaching the result. -/
theorem boxcox_total_and_log_at_zero (xs ls : List ℝ)
    (hlen : xs.length = ls.length) (hx : ∀ x ∈ xs, 0 < x) :
    (boxcox xs ls).length = xs.length ∧
    ∀ i, i < xs.length →
      ((boxcox xs ls).getD i none).isSome = true ∧
      (ls.getD i 0 = 0 →
        fpDiv ((xs.getD i 0) ^ (ls.getD i 0) - 1) (ls.getD i 0) = none ∧
        (boxcox xs ls).getD i none = some (Real.log (xs.getD i 0))) := by
  have hblen : (boxcox xs ls).length = xs.length := by
    simp [boxcox, hlen]
  refine ⟨hblen, fun i hi => ?_⟩
  have hi2 : i < ls.length := hlen ▸ hi
  have hib : i < (boxcox xs ls).length := hblen ▸ hi
  have hget : (boxcox xs ls).getD i none = boxcoxElem (xs.getD i 0) (ls.getD i 0) := by
    rw [List.getD_eq_getElem _ _ hib, List.getD_eq_getElem _ _ hi,
      List.getD_eq_getElem _ _ hi2]
    simp [boxcox]
  have hxpos : 0 < xs.getD i 0 := by
    rw [List.getD_eq_getElem _ _ hi]
    exact hx _ (List.getElem_mem hi)
  constructor
  · rw [hget]
    simp only [boxcoxElem, fpLog, fpDiv]
    by_cases h0 : ls.getD i 0 = 0
    · rw [if_pos h0, if_pos hxpos]
      rfl
    · rw [if_neg h0, if_neg h0]
      rfl
  · intro h0
    refine ⟨by rw [h0]; simp [fpDiv], ?_⟩
    rw [hget]
    simp only [boxcoxElem, fpLog]
    rw [if_pos h0, if_pos hxpos]

/-- C10 witness: on the concrete input `x = [1]`, `lmbda = [0]`, the output
has one element, it is valid, the unselected division branch at that
position is the invalid divide-by-zero value, and the selected value is
`log 1`. -/
theorem boxcox_total_and_log_at_zero_witness :
    (boxcox [1] [0]).length = 1 ∧
    ((boxcox [1] [0]).getD 0 none).isSome = true ∧
    fpDiv (((1 : ℝ)) ^ (0 : ℝ) - 1) 0 = none ∧
    (boxcox [1] [0]).getD 0 none = some (Real.log 1) := by
  have h := boxcox_total_and_log_at_zero [1] [0] rfl (by norm_num)
  have h2 := h.2 0 (by norm_num)
  have h3 := h2.2 (by norm_num)
  exact ⟨h.1, h2.1, by simpa using h3.1, by simpa using h3.2⟩

end Stamox
